import Mathlib

/-!
Verification development for the `spectra` spectroscopic reduction
pipeline.  Python floats are modelled as exact rationals (`ℚ`) except in
the rotation-angle analysis, where the transcendental functions `asin`
and `atan2` force a model over the reals.  Images are modelled as flat
pixel lists (`List ℚ`); two-dimensional frames used by the optimal
extractor are modelled column-major as `List (List ℚ)` because every
arithmetic step of the extractor works per column.
-/

namespace Spectra

/-! ## Dark correction (`dark.py`) -/

/-- An image is a flat list of pixel values. -/
abbrev Image := List ℚ

/-- Pixel-wise subtraction (`a - b` on numpy arrays of equal shape). -/
def imSub (a b : Image) : Image := List.zipWith (· - ·) a b

/-- Pixel-wise scaling (`a * s` on a numpy array; `dark_data * scale`). -/
def imScale (s : ℚ) (a : Image) : Image := a.map (· * s)

/-- The clamp `corrected_data[corrected_data < 0] = 0` in `Dark.correct`:
negative pixels are clamped to zero. -/
def clampNeg (a : Image) : Image := a.map (fun v => if v < 0 then 0 else v)

/-- The state of a `Dark` corrector: the optional master bias and the
`_darks_by_exposure` dictionary, modelled as an association list from
exposure time to dark-frame data, listed in ascending key order (the
code only ever consults the dictionary by exact key or via
`sorted(keys)`, so listing the distinct keys in sorted order is
without loss of generality). -/
structure DarkCfg where
  bias : Option Image
  darks : List (ℚ × Image)

/-- One step of the scan in `Dark._pick_dark`: `delta` and `last` carry
`delta` and `last_cand_time` of the Python loop; candidates below the
target exposure time are skipped by `continue`, and the loop breaks as
soon as the absolute difference grows. -/
def pickAux (t : ℚ) : Option ℚ → Option ℚ → List ℚ → Option ℚ
  | _, last, [] => last
  | delta, last, c :: rest =>
    if c < t then pickAux t delta last rest
    else
      let last1 := match last with
        | none => some c
        | some x => some x
      let nd := |t - c|
      match delta with
      | some d => if nd > d then last1 else pickAux t (some nd) (some c) rest
      | none => pickAux t (some nd) (some c) rest

/-- Method `Dark._pick_dark`: scan the sorted exposure times and return the
chosen key (the Python code then returns `_darks_by_exposure[key]`). -/
def pickDark (keys : List ℚ) (t : ℚ) : Option ℚ := pickAux t none none keys

/-- Method `Dark._correct_scaled`: with no bias the input is returned
unchanged; otherwise the picked dark (if any) is bias-subtracted,
scaled by `exp_time / dark_exptime`, and the result is
`in_data - scaled_dark - bias`; with no suitable dark only the bias is
subtracted. -/
def correctScaled (cfg : DarkCfg) (t : ℚ) (inData : Image) : Image :=
  match cfg.bias with
  | none => inData
  | some b =>
    match pickDark (cfg.darks.map Prod.fst) t with
    | some td =>
      match List.lookup td cfg.darks with
      | some d => imSub (imSub inData (imScale (t / td) (imSub d b))) b
      | none => imSub inData b
    | none => imSub inData b

/-- Method `Dark._correct_direct`: plain pixel-wise subtraction of the dark
stored under the exact exposure time. -/
def correctDirect (cfg : DarkCfg) (t : ℚ) (inData : Image) : Image :=
  match List.lookup t cfg.darks with
  | some d => imSub inData d
  | none => inData

/-- An input frame: the optional `EXPTIME` header value and the data. -/
structure Frame where
  exptime : Option ℚ
  data : Image

/-- The per-frame body of `Dark.correct`: frames without `EXPTIME` are
skipped (`continue`), frames whose exposure time is a dictionary key
use the direct method, all others the scaled method; negative values
are clamped before the frame is written. `none` means no output file
is written for this frame. -/
def correctFrame (cfg : DarkCfg) (fr : Frame) : Option Image :=
  match fr.exptime with
  | none => none
  | some t =>
    if (List.lookup t cfg.darks).isSome then
      some (clampNeg (correctDirect cfg t fr.data))
    else
      some (clampNeg (correctScaled cfg t fr.data))

/-- Method `Dark.correct` over a list of input frames: the sequence of written
output frames. -/
def correctAll (cfg : DarkCfg) (frames : List Frame) : List Image :=
  frames.filterMap (correctFrame cfg)

/-! ## Slant correction (`slant.py`) -/

/-- Python list indexing `in_row[i]` with an `Int` index: nonnegative
indices address from the front, negative indices wrap from the back
(Python semantics; indices below `-len` raise in Python and are out of
the modelled range). -/
def pyGet (l : List ℚ) (i : ℤ) : ℚ :=
  if 0 ≤ i then l.getD i.toNat 0
  else l.getD (l.length - (-i).toNat) 0

/-- One output pixel of `_move_row`: source coordinates are
`x_src0 = floor(x_0 + x_target + offset)` and `x_src1 = ceil(...)`;
if `x_src1 >= len` or `x_src0 > len` the output is `0`, otherwise it is
`w_0 * in_row[x_src0] + w_1 * in_row[x_src1]` with
`w_0 = 1 - (v - x_src0)` and `w_1 = 1 - (x_src1 - v)`. -/
def moveRowPix (inRow : List ℚ) (offset : ℚ) (x0 : ℤ) (xTarget : ℕ) : ℚ :=
  let v : ℚ := x0 + xTarget + offset
  let s0 : ℤ := ⌊v⌋
  let s1 : ℤ := ⌈v⌉
  if (inRow.length : ℤ) ≤ s1 ∨ (inRow.length : ℤ) < s0 then 0
  else
    let w0 : ℚ := 1 - (v - s0)
    let w1 : ℚ := 1 - (s1 - v)
    w0 * pyGet inRow s0 + w1 * pyGet inRow s1

/-- Function `_move_row`: the full output row of `out_row.shape[0] = nOut`
pixels. -/
def moveRow (inRow : List ℚ) (offset : ℚ) (x0 : ℤ) (nOut : ℕ) : List ℚ :=
  (List.range nOut).map (moveRowPix inRow offset x0)

/-! ## Rotation detection (`rotate.py`)

The angle computation in `Rotate.__init__` is
`degrees(asin((peak_hi - peak_low) / sqrt((x_hi - x_low)**2 +
(peak_hi - peak_low)**2)))` with `x_low = int(x_dim / 4)` and
`x_hi = x_low * 3`.  Peak rows are integers; the float arithmetic is
modelled over `ℝ`. -/

/-- Conversion `math.degrees`. -/
noncomputable def degrees (r : ℝ) : ℝ := r * 180 / Real.pi

/-- Column used as the left sample point: `x_low = int(x_dim / 4)`. -/
def xLowOf (xdim : ℕ) : ℕ := xdim / 4

/-- Column used as the right sample point: `x_hi = x_low * 3`. -/
def xHiOf (xdim : ℕ) : ℕ := 3 * (xdim / 4)

/-- The detected rotation angle of `Rotate.__init__` as a function of
the two detected peak rows and the two sample columns. -/
noncomputable def rotAngle (peakLow peakHi : ℤ) (xLow xHi : ℕ) : ℝ :=
  degrees (Real.arcsin (((peakHi : ℝ) - (peakLow : ℝ)) /
    Real.sqrt (((xHi : ℝ) - (xLow : ℝ)) ^ 2 + ((peakHi : ℝ) - (peakLow : ℝ)) ^ 2)))

/-- The spec side of the rotation claim: the two-argument arctangent
`atan2(y, x)` with the standard `math.atan2` case split, written from
the spec's formula `degrees(atan2(peak_hi - peak_low, x_hi - x_low))`. -/
noncomputable def specAtan2 (y x : ℝ) : ℝ :=
  if 0 < x then Real.arctan (y / x)
  else if x < 0 then
    (if 0 ≤ y then Real.arctan (y / x) + Real.pi else Real.arctan (y / x) - Real.pi)
  else if 0 < y then Real.pi / 2
  else if y < 0 then -(Real.pi / 2)
  else 0

/-! ## Wavelength calibration (`calib2.py` / `calib.py`)

Calibration entries are kept sorted by pixel position; the wavelength
assignment state is the list of `wave_len` fields (`none` =
unassigned) in pixel order. -/

/-- Nearest already-assigned wavelength at a lower index: the loop
`for peak in range(peak_no - 1, -1, -1)` stopping at the first entry
whose wavelength is set. -/
def nearestLower (l : List (Option ℚ)) : ℕ → Option ℚ
  | 0 => none
  | i + 1 =>
    match l.getD i none with
    | some w => some w
    | none => nearestLower l i

/-- Nearest already-assigned wavelength at a higher index: the loop
`for peak in range(peak_no + 1, num_entries)` stopping at the first
entry whose wavelength is set. -/
def nearestUpper (l : List (Option ℚ)) (i : ℕ) : Option ℚ :=
  (l.drop (i + 1)).findSome? id

/-- The veto condition of `on_cell_changing`: the new wavelength is
below the nearest assigned wavelength at a lower pixel, or above the
nearest assigned wavelength at a higher pixel. -/
def vetoed (l : List (Option ℚ)) (i : ℕ) (w : ℚ) : Bool :=
  (match nearestLower l i with
    | some wl => decide (w < wl)
    | none => false) ||
  (match nearestUpper l i with
    | some wu => decide (wu < w)
    | none => false)

/-- Assigning a wavelength to entry `i`: vetoed changes leave the
entries untouched, otherwise `on_cell_changed` stores the new
wavelength (`set_wavelength`). -/
def assignWavelength (l : List (Option ℚ)) (i : ℕ) (w : ℚ) : List (Option ℚ) :=
  if vetoed l i w then l else l.set i (some w)

/-- The assigned (pixel, wavelength) pairs are monotonically ordered:
entries are in ascending pixel order, so the assigned wavelengths must
be non-decreasing in the index. -/
def assignedMono (l : List (Option ℚ)) : Prop :=
  ∀ (i j : ℕ) (wi wj : ℚ), i ≤ j →
    l[i]? = some (some wi) → l[j]? = some (some wj) → wi ≤ wj

/-! ## Optimal extraction (`extract.py` / `extract2.py`)

Two-dimensional frames are stored column-major: a `Grid` is the list
of columns, each column the list of row values.  Every arithmetic step
of `_extract_spectrum` and `_create_sky_image` below works per column
(`axis=0` sums), which this layout makes direct.  The grids model the
slices `[data_low:data_high, :]`; the modelled instances carry no
border-column masking (no all-zero edge columns), so the masks of
`net_img`, `masked_sky` and the initial `masked_var` are empty and the
only mask that evolves is the one attached to the profile. -/

/-- A frame as a list of columns of rational pixel values. -/
abbrev Grid := List (List ℚ)

/-- A column-major boolean mask (`true` = masked). -/
abbrev GMask := List (List Bool)

/-- Pixel `(y, x)` of a grid (`0` outside). -/
def gpix (g : Grid) (y x : ℕ) : ℚ := (g.getD x []).getD y 0

/-- Mask bit at `(y, x)` (`true`, i.e. masked, outside). -/
def mpix (m : GMask) (y x : ℕ) : Bool := (m.getD x []).getD y true

/-- Mask one pixel: `p_r[y, x] = ma.masked`. -/
def msetPix (m : GMask) (y x : ℕ) : GMask := m.set x ((m.getD x []).set y true)

/-- Clipping `p_r[p_r < 0] = 0` on one column. -/
def clipCol (col : List ℚ) : List ℚ :=
  col.map (fun v => if v < 0 then 0 else v)

/-- Normalization `p_r / ma.sum(p_r, axis=0)` on one unmasked column: every entry is
divided by the column sum. -/
def normCol (col : List ℚ) : List ℚ := col.map (· / col.sum)

/-- The end of one profile-convergence pass in `_extract_spectrum`
(`p_r[p_r < 0] = 0` followed by `p_r = p_r / ma.sum(p_r, axis=0)`),
applied to the grid of per-row polynomial fit values.  During this
stage the profile carries no mask, so the `axis=0` sum is the full
column sum. -/
def profileNormalize (g : Grid) : Grid :=
  g.map (fun col => normCol (clipCol col))

/-- Sum of `f y` over the unmasked rows `y < ny` of one column
(a masked `ma.sum(..., axis=0)` term). -/
def colSumF (ny : ℕ) (mcol : List Bool) (f : ℕ → ℚ) : ℚ :=
  ((List.range ny).filterMap
    (fun y => if mcol.getD y true then none else some (f y))).sum

/-- Masked sum of the values of one column. -/
def colMaskedSum (col : List ℚ) (mcol : List Bool) (ny : ℕ) : ℚ :=
  colSumF ny mcol (fun y => col.getD y 0)

/-- The fixed inputs of the cosmic-ray rejection loop at the end of
`_extract_spectrum`: the net image, the sky image, the camera read-out
noise and gain, the rejection limit and the grid dimensions. -/
structure CRParams where
  net : Grid
  sky : Grid
  ron : ℚ
  gain : ℚ
  limit : ℚ
  ny : ℕ
  nx : ℕ

/-- The mutable state of the rejection loop: the profile data `p_r`,
its mask, the current `masked_var`, the current residual grid, the
flux `f` and the model `f_by_p = f * p_r` that produced the
residual. -/
structure CRState where
  pR : Grid
  mask : GMask
  varG : Grid
  resid : Grid
  f : List ℚ
  fByP : Grid

/-- Evaluation of `np.nonzero(residual > limit)` on the masked residual: the
unmasked pixels whose residual exceeds the limit, in row-major
(`y` outer, `x` inner) order. -/
def rejList (ny nx : ℕ) (mask : GMask) (resid : Grid) (limit : ℚ) : List (ℕ × ℕ) :=
  (List.range ny).flatMap (fun y =>
    (List.range nx).filterMap (fun x =>
      if mpix mask y x = false ∧ limit < gpix resid y x then some (y, x) else none))

/-- The selection scan of the rejection loop: `max_res = 0`, then for
each rejected pixel in order, strictly larger residuals replace the
current best. -/
def pickMaxAux (resid : Grid) : List (ℕ × ℕ) → ℚ → Option (ℕ × ℕ) → Option (ℕ × ℕ)
  | [], _, best => best
  | p :: rest, maxRes, best =>
    if maxRes < gpix resid p.1 p.2 then
      pickMaxAux resid rest (gpix resid p.1 p.2) (some p)
    else
      pickMaxAux resid rest maxRes best

/-- The pixel `(y_max, x_max)` chosen by the rejection loop. -/
def pickMax (resid : Grid) (l : List (ℕ × ℕ)) : Option (ℕ × ℕ) :=
  pickMaxAux resid l 0 none

/-- Renormalization `p_r = p_r / ma.sum(p_r, axis=0)` under the current mask: every
data value of a column is divided by the column's masked sum. -/
def renormPR (ny : ℕ) (pR : Grid) (mask : GMask) : Grid :=
  (List.range pR.length).map (fun x =>
    (pR.getD x []).map (· / colMaskedSum (pR.getD x []) (mask.getD x []) ny))

/-- One column of
`f = ma.sum(p_r * net_img / masked_var, axis=0) / ma.sum(p_r**2 / masked_var, axis=0)`. -/
def fluxCol (ny : ℕ) (pcol ncol vcol : List ℚ) (mcol : List Bool) : ℚ :=
  colSumF ny mcol (fun y => pcol.getD y 0 * ncol.getD y 0 / vcol.getD y 0) /
  colSumF ny mcol (fun y => pcol.getD y 0 ^ 2 / vcol.getD y 0)

/-- One iteration of the cosmic-ray rejection loop body, executed when
the rejection list is nonempty: mask the worst pixel, renormalize the
profile, recompute flux, model, variance and residual.  When the scan
yields no pixel (impossible for a nonnegative limit) the state is
returned unchanged. -/
def crStep (P : CRParams) (s : CRState) : CRState :=
  match pickMax s.resid (rejList P.ny P.nx s.mask s.resid P.limit) with
  | none => s
  | some p =>
    let mask1 := msetPix s.mask p.1 p.2
    let pR1 := renormPR P.ny s.pR mask1
    let f1 := (List.range P.nx).map (fun x =>
      fluxCol P.ny (pR1.getD x []) (P.net.getD x []) (s.varG.getD x []) (mask1.getD x []))
    let fByP1 := (List.range P.nx).map (fun x =>
      (pR1.getD x []).map (· * f1.getD x 0))
    let var1 := (List.range P.nx).map (fun x =>
      (List.range P.ny).map (fun y =>
        (|gpix fByP1 y x + gpix P.sky y x| + P.ron ^ 2 / P.gain) / P.gain))
    let resid1 := (List.range P.nx).map (fun x =>
      (List.range P.ny).map (fun y =>
        (gpix P.net y x - gpix fByP1 y x) ^ 2 / gpix var1 y x))
    ⟨pR1, mask1, var1, resid1, f1, fByP1⟩

/-- The `while True` rejection loop: exit when no unmasked residual
exceeds the limit, otherwise run one body iteration.  Fuel bounds the
iteration count (each iteration masks one more pixel). -/
def crLoop (P : CRParams) : ℕ → CRState → CRState
  | 0, s => s
  | fuel + 1, s =>
    if rejList P.ny P.nx s.mask s.resid P.limit = [] then s
    else crLoop P fuel (crStep P s)

/-- The candidate pixels of the current iteration. -/
def crCandidates (P : CRParams) (s : CRState) : List (ℕ × ℕ) :=
  rejList P.ny P.nx s.mask s.resid P.limit

/-- An all-false (nothing masked) rectangular mask, the state of
`residual.mask = ma.nomask` before the threshold-selection loop. -/
def noMask (ny nx : ℕ) : GMask := List.replicate nx (List.replicate ny false)

/-- The threshold-selection loop before the rejection loop: starting
from `limit = 25`, the limit is raised by 10 while
`len(rej_idx[0] > rej_cutoff)` is truthy; since that expression equals
`len(rej_idx[0])`, the loop raises the limit until no residual at all
exceeds it. -/
def findLimit (ny nx : ℕ) (resid : Grid) : ℕ → ℚ → ℚ
  | 0, limit => limit
  | fuel + 1, limit =>
    if rejList ny nx (noMask ny nx) resid limit = [] then limit
    else findLimit ny nx resid fuel (limit + 10)

/-- A state is rectangular when its mask has exactly the dimensions of
the frame. -/
def maskWF (P : CRParams) (s : CRState) : Prop :=
  s.mask.length = P.nx ∧ ∀ mc ∈ s.mask, mc.length = P.ny

/-- The behaviour of one rejection-loop iteration: (i) the candidates
are exactly the in-range unmasked pixels whose residual exceeds the
limit — with no condition on the sign of `net - f_by_p`; (ii) with
candidates present, the scan picks a pixel; (iii) the picked pixel is
a candidate of maximal residual, and the step masks exactly that pixel
and no other; (iv) with no candidate the loop stops at once. -/
def crRejectionSpec (P : CRParams) (s : CRState) : Prop :=
  (∀ y x : ℕ, ((y, x) ∈ crCandidates P s ↔
      y < P.ny ∧ x < P.nx ∧ mpix s.mask y x = false ∧ P.limit < gpix s.resid y x)) ∧
  (crCandidates P s ≠ [] → ∃ p, pickMax s.resid (crCandidates P s) = some p) ∧
  (∀ p, pickMax s.resid (crCandidates P s) = some p →
    p ∈ crCandidates P s ∧
    (∀ q ∈ crCandidates P s, gpix s.resid q.1 q.2 ≤ gpix s.resid p.1 p.2) ∧
    (crStep P s).mask = msetPix s.mask p.1 p.2 ∧
    mpix (crStep P s).mask p.1 p.2 = true ∧
    (∀ y x : ℕ, ¬ (y = p.1 ∧ x = p.2) →
      mpix (crStep P s).mask y x = mpix s.mask y x)) ∧
  (crCandidates P s = [] → ∀ fuel, crLoop P fuel s = s)

/-! ## Sky modelling (`_create_sky_image`)

The per-column iterative rejection loop: a degree-2 weighted
polynomial is fitted, points whose residual `(y - poly)**2 * w`
exceeds 16 are masked, and the loop repeats until a pass rejects
nothing.  Mask handling is asymmetric in the source:
`npp.Polynomial.fit(x_data, y_data, deg=2, w=y_weights)` is
mask-blind — numpy's `polyutils._fit` runs the inputs through
`np.asarray`, which drops a `MaskedArray`'s mask and keeps its data —
so every row of the column participates in every fit with its
retained data value and weight, masked or not (`x_data[idx] =
ma.masked` changes only the mask).  Only the rejection test
`ma.nonzero(residual > 16)` honors the mask, returning unmasked
exceeders.  `numpy.polynomial.Polynomial.fit(x, y, deg=2, w)` returns
the weighted least-squares polynomial, the minimizer of
`Σ (w_i * (y_i - p(x_i)))**2`; `fitCol` computes the same minimizer
over all rows by solving the weighted normal equations with Cramer's
rule (numpy works in a rescaled domain, which leaves the fitted
polynomial and hence its residuals unchanged; degenerate systems get
the zero fallback). -/

/-- All points of one column as `(row, value, weight)` triples: the
data `np.asarray` hands to the fit after stripping the mask
(`x_data = ma.arange(0, ny)`, so the abscissa of row `i` is `i`). -/
def allPoints (y w : List ℚ) : List (ℕ × ℚ × ℚ) :=
  (List.zip y w).enum.map (fun q => (q.1, q.2.1, q.2.2))

/-- The unmasked points of one column as `(row, value, weight)`
triples (the masked view the rejection test sees). -/
def skyPoints (y w : List ℚ) (m : List Bool) : List (ℕ × ℚ × ℚ) :=
  (List.zip m (List.zip y w)).enum.filterMap
    (fun q => if q.2.1 then none else some (q.1, q.2.2.1, q.2.2.2))

/-- Power sum `Σ w_i^2 * i^k` over a point list. -/
def skyS (pts : List (ℕ × ℚ × ℚ)) (k : ℕ) : ℚ :=
  (pts.map (fun p => p.2.2 ^ 2 * (p.1 : ℚ) ^ k)).sum

/-- Moment `Σ w_i^2 * y_i * i^k` over a point list. -/
def skyT (pts : List (ℕ × ℚ × ℚ)) (k : ℕ) : ℚ :=
  (pts.map (fun p => p.2.2 ^ 2 * p.2.1 * (p.1 : ℚ) ^ k)).sum

/-- The weighted least-squares degree-2 coefficients `(c0, c1, c2)` of
a point list, by Cramer's rule on the normal equations. -/
def lsqFit (pts : List (ℕ × ℚ × ℚ)) : ℚ × ℚ × ℚ :=
  let s0 := skyS pts 0
  let s1 := skyS pts 1
  let s2 := skyS pts 2
  let s3 := skyS pts 3
  let s4 := skyS pts 4
  let t0 := skyT pts 0
  let t1 := skyT pts 1
  let t2 := skyT pts 2
  let det := s0 * (s2 * s4 - s3 * s3) - s1 * (s1 * s4 - s3 * s2) + s2 * (s1 * s3 - s2 * s2)
  if det = 0 then (0, 0, 0)
  else
    (( t0 * (s2 * s4 - s3 * s3) - s1 * (t1 * s4 - s3 * t2) + s2 * (t1 * s3 - s2 * t2)) / det,
     ( s0 * (t1 * s4 - s3 * t2) - t0 * (s1 * s4 - s3 * s2) + s2 * (s1 * t2 - t1 * s2)) / det,
     ( s0 * (s2 * t2 - t1 * s3) - s1 * (s1 * t2 - t1 * s2) + t0 * (s1 * s3 - s2 * s2)) / det)

/-- The fit the source actually computes at
`npp.Polynomial.fit(x_data, y_data, deg=2, w=y_weights)`: mask-blind,
over every row's retained data and weight. -/
def fitCol (y w : List ℚ) : ℚ × ℚ × ℚ := lsqFit (allPoints y w)

/-- The spec side of the comparison, following the spec's words
"iteratively fit a degree-2 weighted polynomial ... to the unmasked
rows": the same least-squares fit restricted to the unmasked points. -/
def specFitUnmasked (y w : List ℚ) (m : List Bool) : ℚ × ℚ × ℚ :=
  lsqFit (skyPoints y w m)

/-- Evaluation of the fitted degree-2 polynomial. -/
def polyEval (c : ℚ × ℚ × ℚ) (t : ℚ) : ℚ := c.1 + c.2.1 * t + c.2.2 * t ^ 2

/-- Evaluation of `ma.nonzero(residual > 16)`: the unmasked rows whose weighted
squared residual `(y_i - poly(i))**2 * w_i` exceeds 16. -/
def skyRejIdx (y w : List ℚ) (m : List Bool) (c : ℚ × ℚ × ℚ) : List ℕ :=
  (skyPoints y w m).filterMap
    (fun p => if 16 < (p.2.1 - polyEval c (p.1 : ℚ)) ^ 2 * p.2.2 then some p.1 else none)

/-- Assignment `x_data[idx] = ma.masked` for every rejected index. -/
def maskMany (m : List Bool) (idxs : List ℕ) : List Bool :=
  idxs.foldl (fun mm i => mm.set i true) m

/-- The per-column `while rejected` loop of `_create_sky_image`: fit
(mask-blind), reject among the unmasked rows, and repeat until a pass
rejects nothing; the result is the final fit and the final mask. -/
def skyColLoop (y w : List ℚ) : ℕ → List Bool → (ℚ × ℚ × ℚ) × List Bool
  | 0, m => (fitCol y w, m)
  | fuel + 1, m =>
    let c := fitCol y w
    let rej := skyRejIdx y w m c
    if rej = [] then (c, m) else skyColLoop y w fuel (maskMany m rej)

/-! ## Helper lemmas -/

lemma getD_map_of_lt (f : ℚ → ℚ) (a : List ℚ) (i : ℕ) (h : i < a.length) :
    (a.map f).getD i 0 = f (a.getD i 0) := by
  rw [List.getD_eq_getElem?_getD, List.getElem?_map, List.getElem?_eq_getElem h,
    List.getD_eq_getElem?_getD, List.getElem?_eq_getElem h]
  rfl

lemma imSub_getD : ∀ (a b : Image) (i : ℕ), i < a.length → i < b.length →
    (imSub a b).getD i 0 = a.getD i 0 - b.getD i 0 := by
  intro a
  induction a with
  | nil => intro b i h _; simp at h
  | cons x xs ih =>
    intro b i ha hb
    cases b with
    | nil => simp at hb
    | cons y ys =>
      cases i with
      | zero => simp [imSub]
      | succ n =>
        have h1 : n < xs.length := by simpa using ha
        have h2 : n < ys.length := by simpa using hb
        simpa [imSub, List.getD_cons_succ] using ih ys n h1 h2

lemma imSub_length (a b : Image) : (imSub a b).length = min a.length b.length := by
  simp [imSub]

lemma imScale_getD (s : ℚ) (a : Image) (i : ℕ) (h : i < a.length) :
    (imScale s a).getD i 0 = a.getD i 0 * s :=
  getD_map_of_lt _ a i h

lemma clampNeg_getD (a : Image) (i : ℕ) (h : i < a.length) :
    (clampNeg a).getD i 0 = (if a.getD i 0 < 0 then 0 else a.getD i 0) :=
  getD_map_of_lt _ a i h

lemma pickAux_break (t c : ℚ) (rest : List ℚ) (hc : t ≤ c) (hrest : ∀ r ∈ rest, c < r) :
    pickAux t (some |t - c|) (some c) rest = some c := by
  cases rest with
  | nil => rfl
  | cons r rest2 =>
    have hr : c < r := hrest r (by simp)
    have h1 : ¬ r < t := not_lt.mpr (le_of_lt (lt_of_le_of_lt hc hr))
    have habs : |t - c| < |t - r| := by
      rw [abs_sub_comm t c, abs_sub_comm t r,
        abs_of_nonneg (by linarith), abs_of_nonneg (by linarith)]
      linarith
    simp [pickAux, h1, habs]

lemma pickDark_eq_find (t : ℚ) :
    ∀ (keys : List ℚ), List.Sorted (· < ·) keys →
      pickDark keys t = keys.find? (fun c => decide (t ≤ c)) := by
  intro keys
  induction keys with
  | nil => intro _; rfl
  | cons c rest ih =>
    intro hs
    obtain ⟨hhead, htail⟩ := List.sorted_cons.mp hs
    by_cases hc : c < t
    · have hnc : ¬ t ≤ c := not_le.mpr hc
      rw [List.find?_cons]
      simp only [hnc, decide_eq_true_eq, decide_False]
      rw [← ih htail]
      simp [pickDark, pickAux, hc]
    · have hnc : t ≤ c := not_lt.mp hc
      rw [List.find?_cons]
      simp only [hnc, decide_True]
      show pickAux t none none (c :: rest) = some c
      simp only [pickAux, if_neg hc]
      exact pickAux_break t c rest hnc hhead

lemma find_ge_least (t : ℚ) :
    ∀ (keys : List ℚ), List.Sorted (· < ·) keys →
      ∀ c, keys.find? (fun k => decide (t ≤ k)) = some c →
        c ∈ keys ∧ t ≤ c ∧ ∀ b ∈ keys, t ≤ b → c ≤ b := by
  intro keys
  induction keys with
  | nil => intro _ c h; simp at h
  | cons a rest ih =>
    intro hs c h
    obtain ⟨hhead, htail⟩ := List.sorted_cons.mp hs
    rw [List.find?_cons] at h
    by_cases ha : t ≤ a
    · simp only [ha, decide_True] at h
      injection h with h
      subst h
      refine ⟨by simp, ha, ?_⟩
      intro b hb _
      rcases List.mem_cons.mp hb with hb | hb
      · exact le_of_eq hb.symm
      · exact le_of_lt (hhead b hb)
    · simp only [ha, decide_False] at h
      obtain ⟨hmem, hge, hleast⟩ := ih htail c h
      refine ⟨List.mem_cons_of_mem a hmem, hge, ?_⟩
      intro b hb htb
      rcases List.mem_cons.mp hb with hb | hb
      · exact absurd (hb ▸ htb) ha
      · exact hleast b hb htb

/-- C3 counterexample input: a single dark at exposure 10 and a target
exposure of 20.  `_pick_dark` skips every candidate below the target
and finds none at or above it, so it returns `None` and
`_correct_scaled` subtracts only the bias; the claimed fallback to the
closest dark below the target (which would give
`100 - 0 - (4 - 0) * (20 / 10) = 92`) does not happen. -/
theorem pickDark_no_fallback_cex :
    pickDark [(10 : ℚ)] 20 = none ∧
    correctScaled ⟨some [0], [((10 : ℚ), [4])]⟩ 20 [100] = [100] ∧
    ¬ ((100 : ℚ) = 100 - 0 - (4 - 0) * (20 / 10)) := by
  have h10 : ((10 : ℚ) < 20) := by norm_num
  refine ⟨?_, ?_, by norm_num⟩
  · simp [pickDark, pickAux, h10]
  · simp [correctScaled, pickDark, pickAux, h10, imSub]

/-- C3 (amended): among candidates at or above the target exposure
time, `_pick_dark` picks the closest one (the least key `≥ t`); when
no candidate is at or above the target it picks nothing, and the
scaled correction then subtracts only the bias. -/
theorem pickDark_nearest_at_or_above (cfg : DarkCfg) (t : ℚ) (raw b : Image)
    (hs : List.Sorted (· < ·) (cfg.darks.map Prod.fst)) :
    ((∃ c ∈ cfg.darks.map Prod.fst, t ≤ c) →
      ∃ c, pickDark (cfg.darks.map Prod.fst) t = some c ∧
        c ∈ cfg.darks.map Prod.fst ∧ t ≤ c ∧
        ∀ e ∈ cfg.darks.map Prod.fst, t ≤ e → |t - c| ≤ |t - e|) ∧
    ((∀ c ∈ cfg.darks.map Prod.fst, c < t) →
      pickDark (cfg.darks.map Prod.fst) t = none ∧
      (cfg.bias = some b → correctScaled cfg t raw = imSub raw b)) := by
  constructor
  · rintro ⟨c0, hc0, htc0⟩
    rw [pickDark_eq_find t _ hs]
    cases hfind : (cfg.darks.map Prod.fst).find? (fun k => decide (t ≤ k)) with
    | none =>
      rw [List.find?_eq_none] at hfind
      exact absurd (by simpa using htc0) (hfind c0 hc0)
    | some c =>
      obtain ⟨hmem, hge, hleast⟩ := find_ge_least t _ hs c hfind
      refine ⟨c, rfl, hmem, hge, ?_⟩
      intro e he hte
      rw [abs_sub_comm t c, abs_sub_comm t e,
        abs_of_nonneg (by linarith), abs_of_nonneg (by linarith)]
      have := hleast e he hte
      linarith
  · intro hall
    have hnone : pickDark (cfg.darks.map Prod.fst) t = none := by
      rw [pickDark_eq_find t _ hs, List.find?_eq_none]
      intro x hx
      simpa using not_le.mpr (hall x hx)
    refine ⟨hnone, ?_⟩
    intro hb
    simp [correctScaled, hb, hnone]

/-- C3 witness: darks at exposures 5 and 8, target 6; the pick is 8,
the unique closest candidate at or above the target. -/
theorem pickDark_nearest_at_or_above_witness :
    List.Sorted (· < ·) ([((5 : ℚ), ([1] : Image)), (8, [2])].map Prod.fst) ∧
    ((∃ c ∈ [((5 : ℚ), ([1] : Image)), (8, [2])].map Prod.fst, (6 : ℚ) ≤ c) →
      ∃ c, pickDark ([((5 : ℚ), ([1] : Image)), (8, [2])].map Prod.fst) 6 = some c ∧
        c ∈ [((5 : ℚ), ([1] : Image)), (8, [2])].map Prod.fst ∧ (6 : ℚ) ≤ c ∧
        ∀ e ∈ [((5 : ℚ), ([1] : Image)), (8, [2])].map Prod.fst, (6 : ℚ) ≤ e →
          |(6 : ℚ) - c| ≤ |(6 : ℚ) - e|) := by
  have hs : List.Sorted (· < ·) ([((5 : ℚ), ([1] : Image)), (8, [2])].map Prod.fst) := by
    simp [List.sorted_cons]
    norm_num
  exact ⟨hs, (pickDark_nearest_at_or_above ⟨none, [((5 : ℚ), [1]), (8, [2])]⟩ 6 [] [] hs).1⟩

/-- C6: with a bias frame configured and a dark picked at exposure
`td`, the scaled correction is
`raw - B - (dark - B) * (t / td)` pixel for pixel, before the negative
clamp (`correctFrame` only clamps the value `correctScaled` returns). -/
theorem correctScaled_formula (cfg : DarkCfg) (t td : ℚ) (raw b d : Image)
    (hb : cfg.bias = some b)
    (hnx : List.lookup t cfg.darks = none)
    (hp : pickDark (cfg.darks.map Prod.fst) t = some td)
    (hd : List.lookup td cfg.darks = some d) :
    correctFrame cfg ⟨some t, raw⟩ = some (clampNeg (correctScaled cfg t raw)) ∧
    ∀ i : ℕ, i < raw.length → i < b.length → i < d.length →
      (correctScaled cfg t raw).getD i 0 =
        raw.getD i 0 - b.getD i 0 - (d.getD i 0 - b.getD i 0) * (t / td) := by
  constructor
  · simp [correctFrame, hnx]
  · intro i hi hbi hdi
    simp only [correctScaled, hb, hp, hd]
    have l1 : (imSub d b).length = min d.length b.length := imSub_length d b
    have l2 : (imScale (t / td) (imSub d b)).length = (imSub d b).length := by
      simp [imScale]
    have h3 : i < (imScale (t / td) (imSub d b)).length := by
      rw [l2, l1]; exact lt_min hdi hbi
    have h4 : i < (imSub raw (imScale (t / td) (imSub d b))).length := by
      rw [imSub_length]; exact lt_min hi h3
    rw [imSub_getD _ _ _ h4 hbi, imSub_getD _ _ _ hi h3,
      imScale_getD _ _ _ (by rw [l1]; exact lt_min hdi hbi),
      imSub_getD _ _ _ hdi hbi]
    ring

/-- C6 witness: bias `[1]`, dark `[9]` at exposure 4, target exposure
2 on raw `[20]`; the corrected pixel is `20 - 1 - (9 - 1) * (2/4) = 15`. -/
theorem correctScaled_formula_witness :
    (DarkCfg.bias ⟨some [1], [((4 : ℚ), [9])]⟩ = some [1] ∧
      List.lookup (2 : ℚ) (DarkCfg.darks ⟨some [1], [((4 : ℚ), [9])]⟩) = none ∧
      pickDark ((DarkCfg.darks ⟨some [1], [((4 : ℚ), [9])]⟩).map Prod.fst) 2 = some 4 ∧
      List.lookup (4 : ℚ) (DarkCfg.darks ⟨some [1], [((4 : ℚ), [9])]⟩) = some [9]) ∧
    correctFrame ⟨some [1], [((4 : ℚ), [9])]⟩ ⟨some 2, [20]⟩ =
      some (clampNeg (correctScaled ⟨some [1], [((4 : ℚ), [9])]⟩ 2 [20])) ∧
    (correctScaled ⟨some [1], [((4 : ℚ), [9])]⟩ 2 [20]).getD 0 0 =
      (20 : ℚ) - 1 - (9 - 1) * (2 / 4) := by
  have h := correctScaled_formula ⟨some [1], [((4 : ℚ), [9])]⟩ 2 4 [20] [1] [9]
    rfl (by decide) (by decide) (by decide)
  exact ⟨⟨rfl, by decide, by decide, by decide⟩, h.1,
    h.2 0 (by decide) (by decide) (by decide)⟩

/-- C7: a frame whose exposure time has an exact dark match is
corrected by plain subtraction of that dark, and negative pixels are
clamped to zero in the written result. -/
theorem correctDirect_exact_clamp (cfg : DarkCfg) (t : ℚ) (raw d : Image)
    (hd : List.lookup t cfg.darks = some d) :
    correctFrame cfg ⟨some t, raw⟩ = some (clampNeg (imSub raw d)) ∧
    ∀ i : ℕ, i < raw.length → i < d.length →
      (clampNeg (imSub raw d)).getD i 0 =
        (if raw.getD i 0 - d.getD i 0 < 0 then 0 else raw.getD i 0 - d.getD i 0) := by
  constructor
  · simp [correctFrame, hd, correctDirect]
  · intro i hi hdi
    have h1 : i < (imSub raw d).length := by
      rw [imSub_length]; exact lt_min hi hdi
    rw [clampNeg_getD _ _ h1, imSub_getD _ _ _ hi hdi]

/-- C7 witness: dark `[5, 1]` at exposure 2, raw `[3, 7]`; the output
is `clampNeg [3-5, 7-1] = [0, 6]`. -/
theorem correctDirect_exact_clamp_witness :
    List.lookup (2 : ℚ) [((2 : ℚ), ([5, 1] : Image))] = some [5, 1] ∧
    correctFrame ⟨none, [((2 : ℚ), [5, 1])]⟩ ⟨some 2, [3, 7]⟩ =
      some (clampNeg (imSub [3, 7] [5, 1])) ∧
    (clampNeg (imSub [3, 7] [5, 1])).getD 0 0 =
      (if (3 : ℚ) - 5 < 0 then 0 else (3 : ℚ) - 5) := by
  have h := correctDirect_exact_clamp ⟨none, [((2 : ℚ), [5, 1])]⟩ 2 [3, 7] [5, 1] (by decide)
  exact ⟨by decide, h.1, h.2 0 (by decide) (by decide)⟩

/-- C10: a frame with no `EXPTIME` header is skipped: no output is
written for it and processing continues with the remaining frames. -/
theorem correct_skips_missing_exptime (cfg : DarkCfg) (d : Image) (rest : List Frame) :
    correctFrame cfg ⟨none, d⟩ = none ∧
    correctAll cfg (⟨none, d⟩ :: rest) = correctAll cfg rest := by
  refine ⟨rfl, ?_⟩
  simp [correctAll, List.filterMap_cons, correctFrame]

/-- C4 (code bug evaluation): when the source coordinate
`x_0 + x_target + offset` is integral, `floor` and `ceil` agree, both
interpolation weights evaluate to 1, and `_move_row` writes twice the
source pixel instead of the source pixel itself: on row `[7, 3]` with
integer total offset 0 the output is `[14, 6]`, not `[7, 3]`. -/
theorem moveRow_integer_offset_doubles :
    moveRow [(7 : ℚ), 3] 0 0 2 = [14, 6] ∧ ¬ ((14 : ℚ) = 7) := by
  constructor
  · have h0 : ((0 : ℤ) + ((0 : ℕ) : ℚ) + 0) = 0 := by norm_num
    have h1 : ((0 : ℤ) + ((1 : ℕ) : ℚ) + 0) = 1 := by norm_num
    simp only [moveRow, List.range_succ, List.range_zero, List.map_cons, List.map_nil,
      List.nil_append, List.cons_append, moveRowPix, h0, h1]
    norm_num [pyGet]
  · norm_num

/-- Lemma: forcing `l.getD i none = some w` back to `l[i]?`. -/
lemma getD_none_some {l : List (Option ℚ)} {i : ℕ} {w : ℚ}
    (h : l.getD i none = some w) : l[i]? = some (some w) := by
  rw [List.getD_eq_getElem?_getD] at h
  cases hv : l[i]? with
  | none => rw [hv] at h; simp at h
  | some a =>
    rw [hv] at h
    simp only [Option.getD_some] at h
    rw [h]

/-- Lemma: the nearest assigned wavelength below index `i` sits at an
index at least as high as any other assigned index below `i`. -/
lemma nearestLower_spec (l : List (Option ℚ)) :
    ∀ (i j : ℕ) (w : ℚ), j < i → l[j]? = some (some w) →
      ∃ (j0 : ℕ) (w0 : ℚ), j ≤ j0 ∧ j0 < i ∧ l[j0]? = some (some w0) ∧
        nearestLower l i = some w0 := by
  intro i
  induction i with
  | zero => intro j w hj _; omega
  | succ i ih =>
    intro j w hj hw
    cases hgd : l.getD i none with
    | some w0 =>
      refine ⟨i, w0, Nat.lt_succ_iff.mp hj, Nat.lt_succ_self i, getD_none_some hgd, ?_⟩
      unfold nearestLower
      rw [hgd]
    | none =>
      have hji : j < i := by
        rcases Nat.lt_succ_iff_lt_or_eq.mp hj with h | h
        · exact h
        · exfalso
          subst h
          rw [List.getD_eq_getElem?_getD, hw] at hgd
          simp at hgd
      obtain ⟨j0, w0, h1, h2, h3, h4⟩ := ih j w hji hw
      refine ⟨j0, w0, h1, Nat.lt_succ_of_lt h2, h3, ?_⟩
      unfold nearestLower
      rw [hgd]
      exact h4

/-- Lemma: `findSome? id` returns the first present value, which sits
at or before any given present value. -/
lemma findSome_id_first {α : Type} : ∀ (xs : List (Option α)) (k : ℕ) (w : α),
    xs[k]? = some (some w) →
    ∃ (k0 : ℕ) (w0 : α), k0 ≤ k ∧ xs[k0]? = some (some w0) ∧
      xs.findSome? id = some w0 := by
  intro xs
  induction xs with
  | nil => intro k w h; simp at h
  | cons x t ih =>
    intro k w h
    cases x with
    | some a => exact ⟨0, a, Nat.zero_le k, by simp, by simp⟩
    | none =>
      cases k with
      | zero => simp at h
      | succ k2 =>
        have h2 : t[k2]? = some (some w) := by simpa using h
        obtain ⟨k0, w0, h1, h3, h4⟩ := ih k2 w h2
        exact ⟨k0 + 1, w0, Nat.succ_le_succ h1, by simpa using h3, by simpa using h4⟩

/-- Lemma: the nearest assigned wavelength above index `i` sits at an
index at most as high as any other assigned index above `i`. -/
lemma nearestUpper_spec (l : List (Option ℚ)) (i j : ℕ) (w : ℚ)
    (hij : i < j) (hw : l[j]? = some (some w)) :
    ∃ (j0 : ℕ) (w0 : ℚ), i < j0 ∧ j0 ≤ j ∧ l[j0]? = some (some w0) ∧
      nearestUpper l i = some w0 := by
  have hk : (l.drop (i + 1))[j - (i + 1)]? = some (some w) := by
    rw [List.getElem?_drop]
    have h : i + 1 + (j - (i + 1)) = j := by omega
    rw [h]
    exact hw
  obtain ⟨k0, w0, h1, h2, h3⟩ := findSome_id_first (l.drop (i + 1)) (j - (i + 1)) w hk
  rw [List.getElem?_drop] at h2
  exact ⟨i + 1 + k0, w0, by omega, by omega, h2, h3⟩

/-- Lemma: when no veto fires, the new wavelength is bounded by the
nearest assigned neighbors. -/
lemma vetoed_false_bounds {l : List (Option ℚ)} {i : ℕ} {w : ℚ}
    (h : vetoed l i w = false) :
    (∀ wl, nearestLower l i = some wl → wl ≤ w) ∧
    (∀ wu, nearestUpper l i = some wu → w ≤ wu) := by
  rw [vetoed, Bool.or_eq_false_iff] at h
  obtain ⟨h1, h2⟩ := h
  constructor
  · intro wl hwl
    rw [hwl] at h1
    simp only [decide_eq_false_iff_not, not_lt] at h1
    exact h1
  · intro wu hwu
    rw [hwu] at h2
    simp only [decide_eq_false_iff_not, not_lt] at h2
    exact h2

/-- C5: a wavelength assignment below the nearest assigned wavelength
at a lower pixel, or above the nearest assigned wavelength at a higher
pixel, is vetoed and leaves all entries unchanged; and any assignment
preserves the monotone ordering of the assigned (pixel, wavelength)
pairs. -/
theorem assignWavelength_veto_monotone (l : List (Option ℚ)) (i : ℕ) (w : ℚ) :
    (∀ wl : ℚ, nearestLower l i = some wl → w < wl → assignWavelength l i w = l) ∧
    (∀ wu : ℚ, nearestUpper l i = some wu → wu < w → assignWavelength l i w = l) ∧
    (assignedMono l → assignedMono (assignWavelength l i w)) := by
  refine ⟨?_, ?_, ?_⟩
  · intro wl hwl hlt
    have hv : vetoed l i w = true := by
      rw [vetoed, hwl]
      simp [hlt]
    simp [assignWavelength, hv]
  · intro wu hwu hlt
    have hv : vetoed l i w = true := by
      rw [vetoed, hwu]
      simp [hlt]
    simp [assignWavelength, hv]
  · intro hm
    by_cases hv : vetoed l i w
    · simpa [assignWavelength, hv] using hm
    · rw [Bool.not_eq_true] at hv
      obtain ⟨hL, hU⟩ := vetoed_false_bounds hv
      simp only [assignWavelength, hv, Bool.false_eq_true, if_false]
      intro a b wa wb hab ha hb
      rw [List.getElem?_set] at ha hb
      by_cases hai : i = a
      · subst hai
        by_cases hil : i < l.length
        · simp only [if_pos rfl, if_pos hil] at ha
          injection ha with ha
          injection ha with ha
          subst ha
          by_cases hbi : i = b
          · subst hbi
            simp only [if_pos rfl, if_pos hil] at hb
            injection hb with hb
            injection hb with hb
            subst hb
            exact le_refl _
          · simp only [if_neg hbi] at hb
            have hib : i < b := lt_of_le_of_ne hab hbi
            obtain ⟨j0, w0, hj1, hj2, hj3, hj4⟩ := nearestUpper_spec l i b wb hib hb
            exact le_trans (hU w0 hj4) (hm j0 b w0 wb hj2 hj3 hb)
        · simp only [if_pos rfl, if_neg hil] at ha
          exact absurd ha (by simp)
      · simp only [if_neg hai] at ha
        by_cases hbi : i = b
        · subst hbi
          by_cases hil : i < l.length
          · simp only [if_pos rfl, if_pos hil] at hb
            injection hb with hb
            injection hb with hb
            subst hb
            have hai2 : a < i := lt_of_le_of_ne hab (fun h => hai h.symm)
            obtain ⟨j0, w0, hj1, hj2, hj3, hj4⟩ := nearestLower_spec l i a wa hai2 ha
            exact le_trans (hm a j0 wa w0 hj1 ha hj3) (hL w0 hj4)
          · simp only [if_pos rfl, if_neg hil] at hb
            exact absurd hb (by simp)
        · simp only [if_neg hbi] at hb
          exact hm a b wa wb hab ha hb

/-- C5 witness: a low assignment at index 1 next to `some 6` at index
0 is vetoed; a high assignment at index 0 below `some 4` at index 1 is
vetoed; assigning 5 into `[none, none]` keeps the assigned pairs
monotone. -/
theorem assignWavelength_veto_monotone_witness :
    assignWavelength [some 6, none] 1 (5 : ℚ) = [some 6, none] ∧
    assignWavelength [none, some 4] 0 (5 : ℚ) = [none, some 4] ∧
    assignedMono (assignWavelength [none, none] 0 (5 : ℚ)) := by
  have hmono : assignedMono ([none, none] : List (Option ℚ)) := by
    intro a b wa wb hab ha hb
    exfalso
    match a, ha with
    | 0, ha => simp at ha
    | 1, ha => simp at ha
    | n + 2, ha => simp at ha
  refine ⟨?_, ?_, ?_⟩
  · exact (assignWavelength_veto_monotone [some 6, none] 1 5).1 6 rfl (by norm_num)
  · exact (assignWavelength_veto_monotone [none, some 4] 0 5).2.1 4 rfl (by norm_num)
  · exact (assignWavelength_veto_monotone [none, none] 0 5).2.2 hmono

lemma sum_map_div (l : List ℚ) (s : ℚ) : (l.map (· / s)).sum = l.sum / s := by
  induction l with
  | nil => simp
  | cons x t ih => simp [ih, add_div]

/-- C2: after the clip-and-renormalize step that ends every
profile-convergence pass (and therefore holds of the profile the loop
leaves behind), every column of the smoothed profile is nonnegative
and sums to 1, provided the clipped column sum is nonzero. -/
theorem profileNormalize_nonneg_sum_one (g : Grid) (col : List ℚ)
    (hcol : col ∈ g) (hpos : 0 < (clipCol col).sum) :
    normCol (clipCol col) ∈ profileNormalize g ∧
    (∀ v ∈ normCol (clipCol col), 0 ≤ v) ∧
    (normCol (clipCol col)).sum = 1 := by
  refine ⟨List.mem_map_of_mem _ hcol, ?_, ?_⟩
  · intro v hv
    obtain ⟨u, hu, rfl⟩ := List.mem_map.mp hv
    refine div_nonneg ?_ (le_of_lt hpos)
    obtain ⟨u0, _, rfl⟩ := List.mem_map.mp hu
    by_cases h0 : u0 < 0
    · simp [h0]
    · simp [h0]
      exact not_lt.mp h0
  · rw [normCol, sum_map_div, div_self (ne_of_gt hpos)]

/-- C2 witness: the profile grid `[[2, -1], [1, 1]]`; the first column
clips to `[2, 0]` with positive sum 2 and normalizes to `[1, 0]`. -/
theorem profileNormalize_nonneg_sum_one_witness :
    ([(2 : ℚ), -1] ∈ ([[(2 : ℚ), -1], [1, 1]] : Grid) ∧
      0 < (clipCol [(2 : ℚ), -1]).sum) ∧
    normCol (clipCol [(2 : ℚ), -1]) ∈ profileNormalize [[(2 : ℚ), -1], [1, 1]] ∧
    (∀ v ∈ normCol (clipCol [(2 : ℚ), -1]), 0 ≤ v) ∧
    (normCol (clipCol [(2 : ℚ), -1])).sum = 1 := by
  have h1 : [(2 : ℚ), -1] ∈ ([[(2 : ℚ), -1], [1, 1]] : Grid) := by simp
  have h2 : 0 < (clipCol [(2 : ℚ), -1]).sum := by norm_num [clipCol]
  exact ⟨⟨h1, h2⟩, profileNormalize_nonneg_sum_one [[(2 : ℚ), -1], [1, 1]] [(2 : ℚ), -1] h1 h2⟩

/-- C9 counterexample to the claim as stated: the column
`y = [0,0,0,4]` with unit weights and row 3 masked is converged (the
pass rejects nothing: the program's mask-blind fit is
`(1/5, -9/5, 1)` and the unmasked residuals are at most `9/25`), yet
re-running the fit on the column's *unmasked* data gives the zero
polynomial `(0, 0, 0)` — not the program's coefficients.  The fit the
program repeats is mask-blind, so fitting the unmasked rows does not
reproduce it. -/
theorem skyFit_ignores_mask_cex :
    skyRejIdx [(0 : ℚ), 0, 0, 4] [1, 1, 1, 1] [false, false, false, true]
      (fitCol [(0 : ℚ), 0, 0, 4] [1, 1, 1, 1]) = [] ∧
    fitCol [(0 : ℚ), 0, 0, 4] [1, 1, 1, 1] = (1 / 5, -9 / 5, 1) ∧
    specFitUnmasked [(0 : ℚ), 0, 0, 4] [1, 1, 1, 1] [false, false, false, true] =
      (0, 0, 0) ∧
    ¬ (specFitUnmasked [(0 : ℚ), 0, 0, 4] [1, 1, 1, 1] [false, false, false, true] =
        fitCol [(0 : ℚ), 0, 0, 4] [1, 1, 1, 1]) := by
  have hfit : fitCol [(0 : ℚ), 0, 0, 4] [1, 1, 1, 1] = (1 / 5, -9 / 5, 1) := by
    norm_num [fitCol, lsqFit, allPoints, skyS, skyT, List.enum]
  have hspec : specFitUnmasked [(0 : ℚ), 0, 0, 4] [1, 1, 1, 1]
      [false, false, false, true] = (0, 0, 0) := by
    norm_num [specFitUnmasked, lsqFit, skyPoints, skyS, skyT, List.filterMap, List.enum]
  refine ⟨?_, hfit, hspec, ?_⟩
  · rw [hfit]
    norm_num [skyRejIdx, skyPoints, polyEval, List.filterMap, List.enum]
  · rw [hfit, hspec]
    intro h
    injection h with h1 _
    norm_num at h1

/-- C9 (amended): the per-column fit the loop repeats is mask-blind
(numpy's `Polynomial.fit` drops the mask, using every row's retained
data and weight; only the rejection test honors the mask); on a
column whose pass rejects nothing, re-running the per-column loop
returns the identical degree-2 coefficients and masks no additional
points, whatever the iteration budget. -/
theorem skyColLoop_idempotent (y w : List ℚ) (m : List Bool) (fuel : ℕ)
    (hconv : skyRejIdx y w m (fitCol y w) = []) :
    skyColLoop y w fuel m = (fitCol y w, m) := by
  cases fuel with
  | zero => rfl
  | succ n => simp [skyColLoop, hconv]

/-- C9 witness: the all-zero column `y = [0,0,0]` with unit weights
and nothing masked is converged, and the loop reproduces its fit and
mask. -/
theorem skyColLoop_idempotent_witness :
    skyRejIdx [(0 : ℚ), 0, 0] [1, 1, 1] [false, false, false]
      (fitCol [(0 : ℚ), 0, 0] [1, 1, 1]) = [] ∧
    skyColLoop [(0 : ℚ), 0, 0] [1, 1, 1] 5 [false, false, false] =
      (fitCol [(0 : ℚ), 0, 0] [1, 1, 1], [false, false, false]) := by
  have hconv : skyRejIdx [(0 : ℚ), 0, 0] [1, 1, 1] [false, false, false]
      (fitCol [(0 : ℚ), 0, 0] [1, 1, 1]) = [] := by
    norm_num [skyRejIdx, skyPoints, fitCol, lsqFit, allPoints, skyS, skyT, polyEval,
      List.filterMap, List.enum]
  exact ⟨hconv, skyColLoop_idempotent [(0 : ℚ), 0, 0] [1, 1, 1] [false, false, false] 5 hconv⟩

lemma arcsin_ratio_eq_arctan (y x : ℝ) (hx : 0 < x) :
    Real.arcsin (y / Real.sqrt (x ^ 2 + y ^ 2)) = Real.arctan (y / x) := by
  rw [Real.arctan_eq_arcsin]
  congr 1
  have hx2 : (0 : ℝ) < x ^ 2 + y ^ 2 := by positivity
  have hsq : Real.sqrt (1 + (y / x) ^ 2) = Real.sqrt (x ^ 2 + y ^ 2) / x := by
    have h1 : 1 + (y / x) ^ 2 = (x ^ 2 + y ^ 2) / x ^ 2 := by
      field_simp
    rw [h1, Real.sqrt_div (le_of_lt hx2), Real.sqrt_sq (le_of_lt hx)]
  rw [hsq]
  have hs0 : Real.sqrt (x ^ 2 + y ^ 2) ≠ 0 := ne_of_gt (Real.sqrt_pos.mpr hx2)
  field_simp

/-- C8: with the peak rows detected at the columns at 1/4 and 3/4 of
the frame width, the `asin`-based angle of `Rotate.__init__` equals
`degrees(atan2(peak_hi - peak_low, x_hi - x_low))`, and coinciding
peaks give angle 0. -/
theorem rotAngle_eq_atan2 (peakLow peakHi : ℤ) (xdim : ℕ) (hdim : 4 ≤ xdim) :
    rotAngle peakLow peakHi (xLowOf xdim) (xHiOf xdim) =
      degrees (specAtan2 ((peakHi : ℝ) - (peakLow : ℝ))
        ((xHiOf xdim : ℝ) - (xLowOf xdim : ℝ))) ∧
    (peakHi = peakLow →
      rotAngle peakLow peakHi (xLowOf xdim) (xHiOf xdim) = 0) := by
  have hq : 1 ≤ xdim / 4 := (Nat.one_le_div_iff (by norm_num)).mpr hdim
  have hdx : (0 : ℝ) < (xHiOf xdim : ℝ) - (xLowOf xdim : ℝ) := by
    rw [xHiOf, xLowOf]
    push_cast
    have hc : (1 : ℝ) ≤ ((xdim / 4 : ℕ) : ℝ) := by exact_mod_cast hq
    linarith
  constructor
  · rw [rotAngle, specAtan2, if_pos hdx, arcsin_ratio_eq_arctan _ _ hdx]
  · intro h
    subst h
    rw [rotAngle]
    simp [degrees]

/-- C8 witness: a 4-pixel-wide frame with both peaks at row 3; the
angle formulas agree and the angle is 0. -/
theorem rotAngle_eq_atan2_witness :
    (4 : ℕ) ≤ 4 ∧
    (rotAngle 3 3 (xLowOf 4) (xHiOf 4) =
      degrees (specAtan2 (((3 : ℤ) : ℝ) - ((3 : ℤ) : ℝ))
        ((xHiOf 4 : ℝ) - (xLowOf 4 : ℝ))) ∧
     ((3 : ℤ) = 3 → rotAngle 3 3 (xLowOf 4) (xHiOf 4) = 0)) :=
  ⟨by norm_num, rotAngle_eq_atan2 3 3 4 (by norm_num)⟩

lemma rejList_mem (ny nx : ℕ) (mask : GMask) (resid : Grid) (limit : ℚ) (y x : ℕ) :
    (y, x) ∈ rejList ny nx mask resid limit ↔
      y < ny ∧ x < nx ∧ mpix mask y x = false ∧ limit < gpix resid y x := by
  rw [rejList]
  simp only [List.mem_flatMap, List.mem_filterMap, List.mem_range]
  constructor
  · rintro ⟨a, ha, b, hb, hif⟩
    by_cases hc : mpix mask a b = false ∧ limit < gpix resid a b
    · rw [if_pos hc] at hif
      injection hif with hif
      injection hif with h1 h2
      subst h1
      subst h2
      exact ⟨ha, hb, hc.1, hc.2⟩
    · rw [if_neg hc] at hif
      exact absurd hif (by simp)
  · rintro ⟨hy, hx, hm, hr⟩
    exact ⟨y, hy, x, hx, by rw [if_pos ⟨hm, hr⟩]⟩

lemma pickMaxAux_none (resid : Grid) :
    ∀ (l : List (ℕ × ℕ)) (mr : ℚ) (best : Option (ℕ × ℕ)),
      pickMaxAux resid l mr best = none →
        best = none ∧ ∀ q ∈ l, gpix resid q.1 q.2 ≤ mr := by
  intro l
  induction l with
  | nil => intro mr best h; exact ⟨h, by simp⟩
  | cons p t ih =>
    intro mr best h
    rw [pickMaxAux] at h
    by_cases hc : mr < gpix resid p.1 p.2
    · rw [if_pos hc] at h
      obtain ⟨hb, _⟩ := ih _ _ h
      exact absurd hb (by simp)
    · rw [if_neg hc] at h
      obtain ⟨hb, hall⟩ := ih _ _ h
      refine ⟨hb, ?_⟩
      intro q hq
      rcases List.mem_cons.mp hq with rfl | hq
      · exact not_lt.mp hc
      · exact hall q hq

lemma pickMaxAux_max (resid : Grid) :
    ∀ (l : List (ℕ × ℕ)) (mr : ℚ) (best : Option (ℕ × ℕ)),
      (∀ b, best = some b → gpix resid b.1 b.2 = mr) →
      ∀ p, pickMaxAux resid l mr best = some p →
        mr ≤ gpix resid p.1 p.2 ∧
        (p ∈ l ∨ best = some p) ∧
        ∀ q ∈ l, gpix resid q.1 q.2 ≤ gpix resid p.1 p.2 := by
  intro l
  induction l with
  | nil =>
    intro mr best hinv p h
    rw [pickMaxAux] at h
    exact ⟨le_of_eq (hinv p h).symm, Or.inr h, by simp⟩
  | cons a t ih =>
    intro mr best hinv p h
    rw [pickMaxAux] at h
    by_cases hc : mr < gpix resid a.1 a.2
    · rw [if_pos hc] at h
      obtain ⟨h1, h2, h3⟩ := ih _ _ (by intro b hb; injection hb with hb; rw [← hb]) p h
      refine ⟨le_of_lt (lt_of_lt_of_le hc h1), ?_, ?_⟩
      · rcases h2 with h2 | h2
        · exact Or.inl (List.mem_cons_of_mem a h2)
        · injection h2 with h2
          exact Or.inl (h2 ▸ List.mem_cons_self a t)
      · intro q hq
        rcases List.mem_cons.mp hq with rfl | hq
        · exact h1
        · exact h3 q hq
    · rw [if_neg hc] at h
      obtain ⟨h1, h2, h3⟩ := ih _ _ hinv p h
      refine ⟨h1, ?_, ?_⟩
      · rcases h2 with h2 | h2
        · exact Or.inl (List.mem_cons_of_mem a h2)
        · exact Or.inr h2
      · intro q hq
        rcases List.mem_cons.mp hq with rfl | hq
        · exact le_trans (not_lt.mp hc) h1
        · exact h3 q hq

lemma getD_set_self (m : GMask) (x : ℕ) (c : List Bool) (hx : x < m.length) :
    (m.set x c).getD x [] = c := by
  rw [List.getD_eq_getElem?_getD, List.getElem?_set, if_pos rfl, if_pos hx]
  rfl

lemma getD_set_other (m : GMask) (x x2 : ℕ) (c : List Bool) (hx : ¬ x = x2) :
    (m.set x c).getD x2 [] = m.getD x2 [] := by
  rw [List.getD_eq_getElem?_getD, List.getElem?_set, if_neg hx,
    ← List.getD_eq_getElem?_getD]

lemma getDb_set_self (r : List Bool) (y : ℕ) (hy : y < r.length) :
    (r.set y true).getD y true = true := by
  rw [List.getD_eq_getElem?_getD, List.getElem?_set, if_pos rfl, if_pos hy]
  rfl

lemma getDb_set_other (r : List Bool) (y y2 : ℕ) (hy : ¬ y = y2) :
    (r.set y true).getD y2 true = r.getD y2 true := by
  rw [List.getD_eq_getElem?_getD, List.getElem?_set, if_neg hy,
    ← List.getD_eq_getElem?_getD]

lemma mpix_msetPix_self (m : GMask) (y x : ℕ) (hx : x < m.length)
    (hy : y < (m.getD x []).length) : mpix (msetPix m y x) y x = true := by
  rw [mpix, msetPix, getD_set_self m x _ hx, getDb_set_self _ y hy]

lemma mpix_msetPix_other (m : GMask) (y x y2 x2 : ℕ) (h : ¬ (y2 = y ∧ x2 = x)) :
    mpix (msetPix m y x) y2 x2 = mpix m y2 x2 := by
  rw [mpix, msetPix, mpix]
  by_cases hx : x = x2
  · subst hx
    have hy : ¬ (y = y2) := by
      intro hy
      exact h ⟨hy.symm, rfl⟩
    by_cases hlen : x < m.length
    · rw [getD_set_self m x _ hlen, getDb_set_other _ _ _ hy]
    · rw [List.set_eq_of_length_le (le_of_not_lt hlen)]
  · rw [getD_set_other _ _ _ _ hx]

/-- C1 (amended): in the outer cosmic-ray rejection loop the
candidates for masking are exactly the unmasked pixels whose
normalized squared residual exceeds the threshold — with no condition
on the sign of `observed - model` — and each iteration masks exactly
the single worst-offending such pixel (the first one attaining the
maximal residual in row-major scan order), repeating until no residual
exceeds the threshold. -/
theorem crLoop_masks_worst_any_sign (P : CRParams) (s : CRState)
    (hwf : maskWF P s) (hlim : 0 ≤ P.limit) : crRejectionSpec P s := by
  obtain ⟨hlen, hcols⟩ := hwf
  refine ⟨?_, ?_, ?_, ?_⟩
  · intro y x
    exact rejList_mem P.ny P.nx s.mask s.resid P.limit y x
  · intro hne
    cases hp : pickMax s.resid (crCandidates P s) with
    | some p => exact ⟨p, rfl⟩
    | none =>
      obtain ⟨q, hq⟩ := List.exists_mem_of_ne_nil _ hne
      obtain ⟨-, hall⟩ := pickMaxAux_none s.resid _ 0 none hp
      have h1 := (rejList_mem P.ny P.nx s.mask s.resid P.limit q.1 q.2).mp hq
      have h2 := hall q hq
      have h3 := h1.2.2.2
      exact absurd (lt_of_le_of_lt hlim h3) (not_lt.mpr h2)
  · intro p hp
    obtain ⟨h0, h1, h2⟩ :=
      pickMaxAux_max s.resid (crCandidates P s) 0 none (by intro b hb; cases hb) p hp
    have hmem : p ∈ crCandidates P s := by
      rcases h1 with h1 | h1
      · exact h1
      · cases h1
    have hbounds := (rejList_mem P.ny P.nx s.mask s.resid P.limit p.1 p.2).mp hmem
    have hstep : (crStep P s).mask = msetPix s.mask p.1 p.2 := by
      rw [crStep]
      rw [show pickMax s.resid (rejList P.ny P.nx s.mask s.resid P.limit) = some p from hp]
    have hxlen : p.2 < s.mask.length := by
      rw [hlen]
      exact hbounds.2.1
    have hylen : p.1 < (s.mask.getD p.2 []).length := by
      have hm : s.mask.getD p.2 [] ∈ s.mask := by
        rw [List.getD_eq_getElem?_getD, List.getElem?_eq_getElem hxlen]
        exact List.getElem_mem _
      rw [hcols _ hm]
      exact hbounds.1
    refine ⟨hmem, h2, hstep, ?_, ?_⟩
    · rw [hstep]
      exact mpix_msetPix_self s.mask p.1 p.2 hxlen hylen
    · intro y x hne
      rw [hstep]
      exact mpix_msetPix_other s.mask p.1 p.2 y x hne
  · intro hemp fuel
    cases fuel with
    | zero => rfl
    | succ n =>
      rw [crLoop]
      rw [show rejList P.ny P.nx s.mask s.resid P.limit = [] from hemp]
      simp

/-- C1 witness: a 1×1 frame whose single unmasked pixel has residual
100 over the limit 25; the rejection-loop specification holds there. -/
theorem crLoop_masks_worst_any_sign_witness :
    (maskWF ⟨[[5]], [[0]], 0, 1, 25, 1, 1⟩
        ⟨[[1]], [[false]], [[1]], [[100]], [10], [[10]]⟩ ∧
      (0 : ℚ) ≤ CRParams.limit ⟨[[5]], [[0]], 0, 1, 25, 1, 1⟩) ∧
    crRejectionSpec ⟨[[5]], [[0]], 0, 1, 25, 1, 1⟩
      ⟨[[1]], [[false]], [[1]], [[100]], [10], [[10]]⟩ := by
  have hwf : maskWF ⟨[[5]], [[0]], 0, 1, 25, 1, 1⟩
      ⟨[[1]], [[false]], [[1]], [[100]], [10], [[10]]⟩ := by
    constructor
    · rfl
    · intro mc hmc
      simp at hmc
      rw [hmc]
      rfl
  have hlim : (0 : ℚ) ≤ CRParams.limit ⟨[[5]], [[0]], 0, 1, 25, 1, 1⟩ := by norm_num
  exact ⟨⟨hwf, hlim⟩, crLoop_masks_worst_any_sign _ _ hwf hlim⟩

/-- C1 counterexample to the claim as stated: a pixel whose observed
net value lies *below* the model (`net = 0`, `f_by_p = 10`) but whose
residual `(0-10)^2/1 = 100` exceeds the limit 25 is a candidate and is
the pixel the iteration masks — so candidacy is not restricted to
pixels with `observed > model`. -/
theorem crLoop_masks_negative_excursion_cex :
    ((0, 0) ∈ crCandidates ⟨[[0]], [[0]], 0, 1, 25, 1, 1⟩
        ⟨[[1]], [[false]], [[1]], [[100]], [10], [[10]]⟩) ∧
    gpix (CRParams.net ⟨[[0]], [[0]], 0, 1, 25, 1, 1⟩) 0 0 ≤
      gpix (CRState.fByP ⟨[[1]], [[false]], [[1]], [[100]], [10], [[10]]⟩) 0 0 ∧
    mpix (crStep ⟨[[0]], [[0]], 0, 1, 25, 1, 1⟩
        ⟨[[1]], [[false]], [[1]], [[100]], [10], [[10]]⟩).mask 0 0 = true := by
  refine ⟨?_, by norm_num [gpix], ?_⟩
  · exact (rejList_mem 1 1 [[false]] [[100]] 25 0 0).mpr
      ⟨Nat.zero_lt_one, Nat.zero_lt_one, rfl, by norm_num [gpix]⟩
  · decide

/-- Side observation on the threshold-selection loop: unless its fuel
runs out, the limit it returns has no exceeders at all (because
`len(rej_idx[0] > rej_cutoff)` counts the rejected pixels instead of
comparing the count with the cutoff), so the rejection loop that
follows it in `_extract_spectrum` performs zero iterations. -/
lemma findLimit_no_exceeders (ny nx : ℕ) (resid : Grid) :
    ∀ (fuel : ℕ) (limit : ℚ),
      rejList ny nx (noMask ny nx) resid (findLimit ny nx resid fuel limit) = [] ∨
      findLimit ny nx resid fuel limit = limit + 10 * fuel := by
  intro fuel
  induction fuel with
  | zero =>
    intro limit
    right
    simp [findLimit]
  | succ n ih =>
    intro limit
    rw [findLimit]
    by_cases h : rejList ny nx (noMask ny nx) resid limit = []
    · rw [if_pos h]
      left
      exact h
    · rw [if_neg h]
      rcases ih (limit + 10) with h2 | h2
      · left
        exact h2
      · right
        rw [h2]
        push_cast
        ring

end Spectra
